import Mathlib

/-!
Shallow embedding of the heading-inference pipeline of `extractor.py`
(PDF outline extractor).  Fragments carry text, a font size, a font name, a
position and a page number; the pipeline ranks font sizes, labels fragments
with heading levels, resolves a title, filters false-positive headings and
assembles the final outline.  Font sizes and coordinates are modelled as
rationals, Python dicts as association lists in insertion order, and Python
exceptions as `Option`/outcome values.
-/

namespace Extractor

/-- Python `str.strip()`: remove whitespace from both ends of the string. -/
def pyStrip (s : String) : String :=
  ⟨((s.data.dropWhile Char.isWhitespace).reverse.dropWhile Char.isWhitespace).reverse⟩

/-- Python `round(x, 2)`: round to two decimal places (the exact treatment of
halves is immaterial to the claims; we round half away from zero upward). -/
def round2 (q : ℚ) : ℚ := (round (q * 100) : ℚ) / 100

/-- A positioned text fragment as produced by `extract_blocks` /
`extract_lines`: keys `text`, `font_size`, `font_name`, `x0`, `y0`, `page`. -/
structure Fragment where
  text : String
  font_size : ℚ
  font_name : String
  x0 : ℚ
  y0 : ℚ
  page : ℕ
deriving DecidableEq

instance : Inhabited Fragment := ⟨⟨"", 0, "", 0, 0, 0⟩⟩

/-- A fragment tagged with a heading level by `assign_heading_levels`; its
`font_size` field holds the rounded size key. -/
structure LabeledLine where
  text : String
  font_size : ℚ
  font_name : String
  x0 : ℚ
  y0 : ℚ
  page : ℕ
  level : String
deriving DecidableEq

/-- A filtered heading as emitted by `filter_headings`: only `level`, `text`
and `page` remain. -/
structure Heading where
  level : String
  text : String
  page : ℕ
deriving DecidableEq

/-- The final artifact built by `build_outline_json`. -/
structure Outline where
  title : String
  outline : List Heading
deriving DecidableEq

/-- The distinct rounded font sizes of the fragment list, sorted in descending
order: `sorted(font_counter.keys(), reverse=True)` in `rank_font_sizes`
(`Counter` keys are the distinct rounded sizes). -/
def sortedSizes (lines : List Fragment) : List ℚ :=
  List.insertionSort (· ≥ ·) ((lines.map fun l => round2 l.font_size).dedup)

/-- `rank_font_sizes` (extractor.py:140-165): map the top three distinct
rounded font sizes to "H1", "H2", "H3" in descending order.  The Python dict
is modelled as an association list in insertion order. -/
def rank_font_sizes (lines : List Fragment) : List (ℚ × String) :=
  ((sortedSizes lines).take 3).zip ["H1", "H2", "H3"]

/-- `assign_heading_levels` (extractor.py:168-194): keep the fragments whose
rounded font size is a key of the font-level map, carrying over the level. -/
def assign_heading_levels : List Fragment → List (ℚ × String) → List LabeledLine
  | [], _ => []
  | l :: rest, m =>
    match m.lookup (round2 l.font_size) with
    | some lvl =>
        ⟨l.text, round2 l.font_size, l.font_name, l.x0, l.y0, l.page, lvl⟩ ::
          assign_heading_levels rest m
    | none => assign_heading_levels rest m

/-- The labeled line `assign_heading_levels` would build for a fragment
(statement device; the `getD` default is never reached on emitted lines). -/
def toLabeled (m : List (ℚ × String)) (l : Fragment) : LabeledLine :=
  ⟨l.text, round2 l.font_size, l.font_name, l.x0, l.y0, l.page,
    (m.lookup (round2 l.font_size)).getD ""⟩

/-- `get_title_from_metadata` (extractor.py:196-207): strip the metadata
title; empty means absent (`None`). -/
def get_title_from_metadata (metadataTitle : String) : Option String :=
  let title := pyStrip metadataTitle
  if title = "" then none else some title

/-- The maximum font size of a fragment list:
`max(line["font_size"] for line in first_page_lines)`; `0` stands for the
`ValueError` case of an empty list, which callers guard against. -/
def maxFontSize : List Fragment → ℚ
  | [] => 0
  | x :: xs => xs.foldl (fun acc l => max acc l.font_size) x.font_size

/-- The sort key order used on title candidates
(`key=lambda l: (l["y0"], abs((l["x0"] + 10) - page_width / 2))`):
lexicographic on `y0`, then the horizontal-centering distance. -/
def titleLe (page_width : ℚ) (a b : Fragment) : Prop :=
  a.y0 < b.y0 ∨ (a.y0 = b.y0 ∧
    |a.x0 + 10 - page_width / 2| ≤ |b.x0 + 10 - page_width / 2|)

instance (pw : ℚ) : DecidableRel (titleLe pw) := by
  intro a b
  unfold titleLe
  infer_instance

instance (pw : ℚ) : IsTotal Fragment (titleLe pw) := by
  constructor
  intro a b
  rcases lt_trichotomy a.y0 b.y0 with h | h | h
  · exact Or.inl (Or.inl h)
  · rcases le_total (|a.x0 + 10 - pw / 2|) (|b.x0 + 10 - pw / 2|) with h2 | h2
    · exact Or.inl (Or.inr ⟨h, h2⟩)
    · exact Or.inr (Or.inr ⟨h.symm, h2⟩)
  · exact Or.inr (Or.inl h)

instance (pw : ℚ) : IsTrans Fragment (titleLe pw) := by
  constructor
  rintro a b c (hab | ⟨hab, hab2⟩) (hbc | ⟨hbc, hbc2⟩)
  · exact Or.inl (hab.trans hbc)
  · exact Or.inl (hbc ▸ hab)
  · exact Or.inl (hab ▸ hbc)
  · exact Or.inr ⟨hab.trans hbc, hab2.trans hbc2⟩

/-- The sort key order used in the title fallback (`key=lambda l: l["y0"]`). -/
def yLe (a b : Fragment) : Prop := a.y0 ≤ b.y0

instance : DecidableRel yLe := by
  intro a b
  unfold yLe
  infer_instance

instance : IsTotal Fragment yLe := ⟨fun a b => le_total a.y0 b.y0⟩

instance : IsTrans Fragment yLe := ⟨fun _ _ _ h h2 => le_trans h h2⟩

/-- The restricted set of `infer_title_from_lines` (extractor.py:222-227):
the page-1 fragments, or the first 10 fragments if page 1 has none. -/
def restrictedSet (lines : List Fragment) : List Fragment :=
  if (lines.filter fun l => l.page == 1).isEmpty then lines.take 10
  else lines.filter fun l => l.page == 1

/-- The title candidate set (extractor.py:229-237): restricted-set fragments
whose rounded font size equals the rounded maximum of the restricted set and
whose text length is at most 100. -/
def titleCandidates (lines : List Fragment) : List Fragment :=
  (restrictedSet lines).filter fun l =>
    round2 l.font_size == round2 (maxFontSize (restrictedSet lines))
      && decide (l.text.length ≤ 100)

/-- `infer_title_from_lines` (extractor.py:211-247): among the candidates,
return the trimmed text of the first after sorting by
`(y0, centering distance)`; if no candidate, the trimmed text of the topmost
restricted fragment.  `none` models the `ValueError` that `max` raises when
the restricted set is empty. -/
def infer_title_from_lines (lines : List Fragment) (page_width : ℚ) :
    Option String :=
  match restrictedSet lines with
  | [] => none
  | x :: xs =>
    match List.insertionSort (titleLe page_width) (titleCandidates lines) with
    | c :: _ => some (pyStrip c.text)
    | [] => some (pyStrip (List.insertionSort yLe (x :: xs)).headI.text)

/-- The repetition counter of `filter_headings`:
`Counter(line["text"] for line in labeled_lines)` — occurrences of the exact
(untrimmed) text; a missing key counts as 0. -/
def textCount (labeled : List LabeledLine) (s : String) : ℕ :=
  (labeled.map LabeledLine.text).count s

/-- The loop body of `filter_headings` with the precomputed counter: skip
lines whose trimmed text is longer than 120, whose trimmed text has counter
value above 2, or whose `y0` exceeds 750; project the rest. -/
def filterGo (counter : String → ℕ) : List LabeledLine → List Heading
  | [] => []
  | l :: rest =>
    let text := pyStrip l.text
    if text.length > 120 then filterGo counter rest
    else if counter text > 2 then filterGo counter rest
    else if l.y0 > 750 then filterGo counter rest
    else ⟨l.level, text, l.page⟩ :: filterGo counter rest

/-- `filter_headings` (extractor.py:252-290). -/
def filter_headings (labeled : List LabeledLine) : List Heading :=
  filterGo (textCount labeled) labeled

/-- The retention test of `filter_headings` as a Boolean predicate on a
labeled line, given the repetition counter. -/
def keepB (counter : String → ℕ) (l : LabeledLine) : Bool :=
  decide ((pyStrip l.text).length ≤ 120) && decide (counter (pyStrip l.text) ≤ 2)
    && decide (l.y0 ≤ 750)

/-- The projection applied by `filter_headings` to retained lines. -/
def projHeading (l : LabeledLine) : Heading := ⟨l.level, pyStrip l.text, l.page⟩

/-- `build_outline_json` (extractor.py:294-315). -/
def build_outline_json (title : String) (headings : List Heading) : Outline :=
  ⟨title, headings.map fun h => ⟨h.level, h.text, h.page⟩⟩

/-- Title resolution in `process_pdf` (extractor.py:375-380): metadata title
if present, otherwise geometric inference over the fragments (with the
default page width 595.2 of `infer_title_from_lines`). -/
def resolve_title (metadataTitle : String) (blocks : List Fragment) :
    Option String :=
  match get_title_from_metadata metadataTitle with
  | some t => some t
  | none => infer_title_from_lines blocks (5952 / 10)

/-- Outcome of processing one document: an output file written with the given
data, a silent skip, or an exception caught by the handler. -/
inductive Outcome where
  | written (data : Outline)
  | skipped
  | errored
deriving DecidableEq

/-- The pure core of `process_pdf` (extractor.py:350-399), taking the
extracted blocks and the metadata title as inputs: each empty-content check
returns without writing (`skipped`); an uncaught-in-line exception (the
`ValueError` of `max` inside title inference) is caught by the surrounding
handler (`errored`); otherwise the outline is written. -/
def process_pdf (metadataTitle : String) (blocks : List Fragment) : Outcome :=
  if blocks = [] then .skipped
  else
    let font_level_map := rank_font_sizes blocks
    if font_level_map = [] then .skipped
    else
      let labeled_blocks := assign_heading_levels blocks font_level_map
      if labeled_blocks = [] then .skipped
      else
        match resolve_title metadataTitle blocks with
        | none => .errored
        | some title =>
          let clean_headings := filter_headings labeled_blocks
          if clean_headings = [] then .skipped
          else .written (build_outline_json title clean_headings)

/-! ### Helper lemmas -/

lemma filterGo_cons (c : String → ℕ) (l : LabeledLine) (rest : List LabeledLine) :
    filterGo c (l :: rest) =
      if keepB c l then projHeading l :: filterGo c rest else filterGo c rest := by
  simp only [filterGo, keepB, projHeading]
  rcases Nat.lt_or_ge 120 (pyStrip l.text).length with h1 | h1
  · rw [if_pos h1, if_neg]
    simp [Nat.not_le.mpr h1]
  · rw [if_neg (Nat.not_lt.mpr h1)]
    rcases Nat.lt_or_ge 2 (c (pyStrip l.text)) with h2 | h2
    · rw [if_pos h2, if_neg]
      simp [Nat.not_le.mpr h2]
    · rw [if_neg (Nat.not_lt.mpr h2)]
      rcases lt_or_le (750 : ℚ) l.y0 with h3 | h3
      · rw [if_pos h3, if_neg]
        simp [not_le.mpr h3]
      · rw [if_neg (not_lt.mpr h3), if_pos]
        simp [h1, h2, h3]

lemma filterGo_eq (c : String → ℕ) :
    ∀ ls : List LabeledLine, filterGo c ls = (ls.filter (keepB c)).map projHeading := by
  intro ls
  induction ls with
  | nil => rfl
  | cons l rest ih =>
    rw [filterGo_cons, List.filter_cons]
    by_cases h : keepB c l
    · rw [if_pos h, if_pos h, List.map_cons, ih]
    · rw [if_neg h, if_neg h, ih]

lemma textCount_filter_le (p : LabeledLine → Bool) (labeled : List LabeledLine)
    (s : String) : textCount (labeled.filter p) s ≤ textCount labeled s :=
  List.Sublist.count_le ((labeled.filter_sublist).map LabeledLine.text) s

lemma keepB_iff (c : String → ℕ) (l : LabeledLine) :
    keepB c l = true ↔
      ((pyStrip l.text).length ≤ 120 ∧ c (pyStrip l.text) ≤ 2 ∧ l.y0 ≤ 750) := by
  simp [keepB, and_assoc]

lemma assign_nil_map : ∀ lines : List Fragment, assign_heading_levels lines [] = [] := by
  intro lines
  induction lines with
  | nil => rfl
  | cons l rest ih => simpa [assign_heading_levels] using ih

lemma heading_eta : ∀ h : Heading, (⟨h.level, h.text, h.page⟩ : Heading) = h :=
  fun ⟨_, _, _⟩ => rfl

lemma insertionSort_head_min {α : Type} (r : α → α → Prop) [DecidableRel r]
    [IsTotal α r] [IsTrans α r] (l : List α) (c : α) (rest : List α)
    (h : List.insertionSort r l = c :: rest) : c ∈ l ∧ ∀ y ∈ l, r c y := by
  have hp : (c :: rest).Perm l := by
    rw [← h]
    exact List.perm_insertionSort r l
  have hs : List.Sorted r (c :: rest) := by
    rw [← h]
    exact List.sorted_insertionSort r l
  refine ⟨hp.subset (List.mem_cons_self c rest), ?_⟩
  intro y hy
  have : y ∈ c :: rest := hp.mem_iff.mpr hy
  rcases List.mem_cons.mp this with h1 | h1
  · subst h1
    exact (total_of r y y).elim id id
  · exact List.rel_of_sorted_cons hs y h1

/-! ### Claim theorems -/

/-- C7: the Outline Assembler is a lossless pure merge: `build_outline_json`
returns the given title unchanged and the given heading sequence unchanged,
in order and field by field. -/
theorem build_outline_json_lossless :
    ∀ (t : String) (hs : List Heading),
      (build_outline_json t hs).title = t ∧ (build_outline_json t hs).outline = hs := by
  intro t hs
  refine ⟨rfl, ?_⟩
  show hs.map (fun h => (⟨h.level, h.text, h.page⟩ : Heading)) = hs
  rw [show (fun h : Heading => (⟨h.level, h.text, h.page⟩ : Heading)) = id from
    funext heading_eta, List.map_id]

/-- C5: `assign_heading_levels` emits the image of a sublist of its input
(order preserved); every emitted item's rounded font size is a key of the
supplied map whose value is the item's level; the empty map yields the empty
output. -/
theorem assign_heading_levels_spec :
    ∀ (lines : List Fragment) (m : List (ℚ × String)),
      (∃ sub : List Fragment, sub.Sublist lines ∧
        assign_heading_levels lines m = sub.map (toLabeled m))
      ∧ (∀ ll ∈ assign_heading_levels lines m, m.lookup ll.font_size = some ll.level)
      ∧ assign_heading_levels lines [] = [] := by
  intro lines m
  refine ⟨?_, ?_, assign_nil_map lines⟩
  · induction lines with
    | nil => exact ⟨[], List.Sublist.refl [], rfl⟩
    | cons l rest ih =>
      obtain ⟨sub, hsub, heq⟩ := ih
      cases hm : m.lookup (round2 l.font_size) with
      | none =>
        refine ⟨sub, hsub.cons l, ?_⟩
        simp [assign_heading_levels, hm, heq]
      | some lvl =>
        refine ⟨l :: sub, hsub.cons₂ l, ?_⟩
        simp [assign_heading_levels, hm, heq, toLabeled]
  · induction lines with
    | nil => intro ll h; exact absurd h (List.not_mem_nil ll)
    | cons l rest ih =>
      intro ll hll
      cases hm : m.lookup (round2 l.font_size) with
      | none =>
        simp only [assign_heading_levels, hm] at hll
        exact ih ll hll
      | some lvl =>
        simp only [assign_heading_levels, hm, List.mem_cons] at hll
        rcases hll with h1 | h1
        · subst h1
          simpa using hm
        · exact ih ll h1

/-- C2 (amended): `filter_headings` retains exactly the labeled lines whose
trimmed text has length ≤ 120, whose repetition counter — occurrences of the
exact untrimmed text across the input, queried at the trimmed text — is at
most 2, and whose y0 is ≤ 750; the output preserves order and projects each
retained line to level, trimmed text and page. -/
theorem filter_headings_spec :
    ∀ labeled : List LabeledLine,
      filter_headings labeled =
        (labeled.filter (keepB (textCount labeled))).map projHeading
      ∧ ∀ l : LabeledLine, keepB (textCount labeled) l = true ↔
          ((pyStrip l.text).length ≤ 120
            ∧ textCount labeled (pyStrip l.text) ≤ 2 ∧ l.y0 ≤ 750) :=
  fun labeled => ⟨filterGo_eq (textCount labeled) labeled,
    fun l => keepB_iff (textCount labeled) l⟩

/-- Modelled from the claim's words (refinement foil, not the source): the
Heading Filter with repetition counted per distinct trimmed text value. -/
def filter_headings_claimed (labeled : List LabeledLine) : List Heading :=
  (labeled.filter (keepB fun s => ((labeled.map fun l => pyStrip l.text).count s))).map
    projHeading

/-- A labeled list whose trimmed texts coincide three times while the exact
untrimmed texts repeat at most twice. -/
def exC2 : List LabeledLine :=
  [⟨"A", 24, "F", 0, 0, 1, "H1"⟩, ⟨"A ", 24, "F", 0, 0, 1, "H1"⟩,
    ⟨"A ", 24, "F", 0, 0, 1, "H1"⟩]

/-- C2 counterexample: on `exC2` the trimmed text "A" occurs 3 times, so the
claim as stated drops every line, yet the source retains all three (its
counter is keyed by the exact untrimmed text). -/
theorem filter_headings_counterexample :
    ((exC2.map fun l => pyStrip l.text).count "A") = 3
      ∧ filter_headings_claimed exC2 = []
      ∧ filter_headings exC2 =
          [⟨"H1", "A", 1⟩, ⟨"H1", "A", 1⟩, ⟨"H1", "A", 1⟩] := by
  decide

/-- C4: the Heading Filter is idempotent: re-filtering the sublist of labeled
lines retained by `filter_headings` produces the same output — no line that
already passed the length, repetition and position tests is removed on a
second pass. -/
theorem filter_headings_idempotent :
    ∀ labeled : List LabeledLine,
      filter_headings (labeled.filter (keepB (textCount labeled))) =
        filter_headings labeled := by
  intro labeled
  rw [filter_headings, filter_headings, filterGo_eq, filterGo_eq]
  congr 1
  have hself :
      (labeled.filter (keepB (textCount labeled))).filter
          (keepB (textCount (labeled.filter (keepB (textCount labeled))))) =
        labeled.filter (keepB (textCount labeled)) := by
    rw [List.filter_eq_self]
    intro l hl
    have hk : keepB (textCount labeled) l = true := (List.mem_filter.mp hl).2
    rw [keepB_iff] at hk ⊢
    refine ⟨hk.1, ?_, hk.2.2⟩
    exact le_trans
      (textCount_filter_le (keepB (textCount labeled)) labeled (pyStrip l.text))
      hk.2.1
  rw [hself]

lemma round2_intCast (n : ℤ) : round2 (n : ℚ) = n := by
  rw [round2, show ((n : ℚ) * 100) = ((n * 100 : ℤ) : ℚ) by push_cast; ring,
    round_intCast]
  push_cast
  rw [mul_div_cancel_right₀]
  norm_num

lemma round2_natCast (n : ℕ) : round2 (n : ℚ) = n := by
  have h := round2_intCast (n : ℤ)
  rw [show (((n : ℤ) : ℚ)) = ((n : ℕ) : ℚ) by push_cast; ring] at h
  exact h

lemma sortedSizes_perm (lines : List Fragment) :
    (sortedSizes lines).Perm ((lines.map fun l => round2 l.font_size).dedup) :=
  List.perm_insertionSort _ _

lemma sortedSizes_sorted (lines : List Fragment) :
    List.Sorted (· ≥ ·) (sortedSizes lines) :=
  List.sorted_insertionSort _ _

lemma sortedSizes_nodup (lines : List Fragment) : (sortedSizes lines).Nodup :=
  (sortedSizes_perm lines).nodup_iff.mpr (List.nodup_dedup _)

lemma sortedSizes_ne_nil (blocks : List Fragment) (h : blocks ≠ []) :
    sortedSizes blocks ≠ [] := by
  intro hnil
  have hlen := (sortedSizes_perm blocks).length_eq
  rw [hnil] at hlen
  have hd : ((blocks.map fun l => round2 l.font_size).dedup) = [] :=
    List.eq_nil_of_length_eq_zero hlen.symm
  have hm : (blocks.map fun l => round2 l.font_size) = [] :=
    (List.dedup_eq_nil _).mp hd
  exact h (List.map_eq_nil_iff.mp hm)

lemma rank_head (blocks : List Fragment) (a : ℚ) (rest : List ℚ)
    (h : sortedSizes blocks = a :: rest) :
    rank_font_sizes blocks = (a, "H1") :: ((rest.take 2).zip ["H2", "H3"]) := by
  simp [rank_font_sizes, h]

lemma rank_ne_nil (blocks : List Fragment) (h : blocks ≠ []) :
    rank_font_sizes blocks ≠ [] := by
  obtain ⟨a, rest, hS⟩ := List.exists_cons_of_ne_nil (sortedSizes_ne_nil blocks h)
  rw [rank_head blocks a rest hS]
  exact List.cons_ne_nil _ _

lemma assign_ne_nil (m : List (ℚ × String)) (blocks : List Fragment)
    (l : Fragment) (hl : l ∈ blocks)
    (hsome : (m.lookup (round2 l.font_size)).isSome) :
    assign_heading_levels blocks m ≠ [] := by
  induction blocks with
  | nil => cases hl
  | cons b rest ih =>
    rcases List.mem_cons.mp hl with rfl | hmem
    · obtain ⟨v, hv⟩ := Option.isSome_iff_exists.mp hsome
      simp [assign_heading_levels, hv]
    · cases hb : m.lookup (round2 b.font_size) with
      | some v => simp [assign_heading_levels, hb]
      | none =>
        simp only [assign_heading_levels, hb]
        exact ih hmem

lemma labeled_ne_nil (blocks : List Fragment) (h : blocks ≠ []) :
    assign_heading_levels blocks (rank_font_sizes blocks) ≠ [] := by
  obtain ⟨a, rest, hS⟩ := List.exists_cons_of_ne_nil (sortedSizes_ne_nil blocks h)
  have ha : a ∈ sortedSizes blocks := by rw [hS]; exact List.mem_cons_self a rest
  have ha2 : a ∈ (blocks.map fun l => round2 l.font_size) :=
    List.mem_dedup.mp ((sortedSizes_perm blocks).subset ha)
  obtain ⟨l, hl, hla⟩ := List.mem_map.mp ha2
  refine assign_ne_nil (rank_font_sizes blocks) blocks l hl ?_
  rw [hla, rank_head blocks a rest hS]
  simp [List.lookup]

lemma infer_isSome_of_ne_nil (lines : List Fragment) (pw : ℚ)
    (h : lines ≠ []) : (infer_title_from_lines lines pw).isSome = true := by
  have hr : restrictedSet lines ≠ [] := by
    intro hnil
    rw [restrictedSet] at hnil
    by_cases hE : (lines.filter fun l => l.page == 1).isEmpty
    · rw [if_pos hE] at hnil
      rcases List.take_eq_nil_iff.mp hnil with h10 | hlin
      · exact absurd h10 (by decide)
      · exact h hlin
    · rw [if_neg hE] at hnil
      exact hE (by rw [hnil]; rfl)
  obtain ⟨x, xs, hx⟩ := List.exists_cons_of_ne_nil hr
  rw [infer_title_from_lines, hx]
  cases List.insertionSort (titleLe pw) (titleCandidates lines) with
  | nil => rfl
  | cons c cs => rfl

/-- C10: the geometric title inference returns no value exactly on the empty
fragment list — both the page-1 restriction and the first-10 fallback are
empty, so the maximum-size computation raises (modelled as `none`); on every
non-empty list it returns a string. -/
theorem infer_title_none_iff_nil :
    ∀ (lines : List Fragment) (pw : ℚ),
      infer_title_from_lines lines pw = none ↔ lines = [] := by
  intro lines pw
  constructor
  · intro h
    by_contra hne
    have hs := infer_isSome_of_ne_nil lines pw hne
    rw [h] at hs
    exact Bool.noConfusion hs
  · rintro rfl
    rfl

/-- C1 conclusion: the font-level map has exactly three entries, keyed by
strictly descending sizes assigned to "H1", "H2", "H3" in order. -/
def rankSpec (lines : List Fragment) : Prop :=
  (rank_font_sizes lines).length = 3 ∧
    ∃ a b c : ℚ, rank_font_sizes lines = [(a, "H1"), (b, "H2"), (c, "H3")]
      ∧ b < a ∧ c < b

/-- C1: with at least 3 distinct rounded font sizes, `rank_font_sizes`
returns a 3-entry map with strictly descending keys for H1, H2, H3; the
empty fragment list yields the empty map. -/
theorem rank_font_sizes_top3 :
    ∀ lines : List Fragment,
      (3 ≤ ((lines.map fun l => round2 l.font_size).dedup).length →
        rankSpec lines)
      ∧ rank_font_sizes ([] : List Fragment) = [] := by
  intro lines
  refine ⟨?_, rfl⟩
  intro h3
  have hlen : 3 ≤ (sortedSizes lines).length := by
    rw [(sortedSizes_perm lines).length_eq]
    exact h3
  rcases hS : sortedSizes lines with _ | ⟨a, _ | ⟨b, _ | ⟨c, S3⟩⟩⟩
  · rw [hS] at hlen; simp at hlen
  · rw [hS] at hlen; simp at hlen
  · rw [hS] at hlen; simp at hlen
  have hsorted := sortedSizes_sorted lines
  have hnodup := sortedSizes_nodup lines
  rw [hS] at hsorted hnodup
  have hab : b ≤ a := (List.sorted_cons.mp hsorted).1 b (by simp)
  have hbc : c ≤ b :=
    ((List.sorted_cons.mp (List.sorted_cons.mp hsorted).2).1) c (by simp)
  have hne_ab : a ≠ b := by
    intro he
    exact (List.nodup_cons.mp hnodup).1 (by rw [he]; simp)
  have hne_bc : b ≠ c := by
    intro he
    exact (List.nodup_cons.mp (List.nodup_cons.mp hnodup).2).1 (by rw [he]; simp)
  have hrank : rank_font_sizes lines = [(a, "H1"), (b, "H2"), (c, "H3")] := by
    simp [rank_font_sizes, hS]
  exact ⟨by rw [hrank]; rfl,
    a, b, c, hrank, lt_of_le_of_ne hab (Ne.symm hne_ab),
    lt_of_le_of_ne hbc (Ne.symm hne_bc)⟩

/-- A three-size fragment list used to instantiate C1. -/
def lines3 : List Fragment :=
  [⟨"Title Page", 24, "F", 0, 50, 1⟩, ⟨"Section", 18, "F", 0, 100, 1⟩,
    ⟨"body", 12, "F", 0, 200, 1⟩]

/-- C1 witness: `lines3` has three distinct rounded sizes and satisfies the
ranking property. -/
theorem rank_font_sizes_top3_witness :
    3 ≤ ((lines3.map fun l => round2 l.font_size).dedup).length
      ∧ rankSpec lines3 := by
  have hmap : (lines3.map fun l => round2 l.font_size) = [24, 18, 12] := by
    show [round2 24, round2 18, round2 12] = [24, 18, 12]
    rw [show (24 : ℚ) = ((24 : ℕ) : ℚ) by norm_num, round2_natCast,
      show (18 : ℚ) = ((18 : ℕ) : ℚ) by norm_num, round2_natCast,
      show (12 : ℚ) = ((12 : ℕ) : ℚ) by norm_num, round2_natCast]
  have h3 : 3 ≤ ((lines3.map fun l => round2 l.font_size).dedup).length := by
    rw [hmap]
    decide
  exact ⟨h3, (rank_font_sizes_top3 lines3).1 h3⟩

/-- C8: `rank_font_sizes` is order-independent: fragment lists with the same
multiset of rounded font sizes produce equal font-level maps. -/
theorem rank_font_sizes_order_independent :
    ∀ l1 l2 : List Fragment,
      (l1.map fun l => round2 l.font_size).Perm
          (l2.map fun l => round2 l.font_size) →
        rank_font_sizes l1 = rank_font_sizes l2 := by
  intro l1 l2 h
  have hsort : sortedSizes l1 = sortedSizes l2 :=
    List.eq_of_perm_of_sorted
      ((sortedSizes_perm l1).trans (h.dedup.trans (sortedSizes_perm l2).symm))
      (sortedSizes_sorted l1) (sortedSizes_sorted l2)
  rw [rank_font_sizes, rank_font_sizes, hsort]

/-- Two-fragment lists that are permutations of one another. -/
def permA : List Fragment := [⟨"a", 12, "F", 0, 0, 1⟩, ⟨"b", 24, "F", 0, 9, 1⟩]

/-- The reversal of `permA`. -/
def permB : List Fragment := [⟨"b", 24, "F", 0, 9, 1⟩, ⟨"a", 12, "F", 0, 0, 1⟩]

/-- C8 witness: the concrete permuted pair yields equal maps. -/
theorem rank_font_sizes_order_independent_witness :
    (permA.map fun l => round2 l.font_size).Perm
        (permB.map fun l => round2 l.font_size)
      ∧ rank_font_sizes permA = rank_font_sizes permB := by
  have hperm : (permA.map fun l => round2 l.font_size).Perm
      (permB.map fun l => round2 l.font_size) := by
    show [round2 12, round2 24].Perm [round2 24, round2 12]
    exact List.Perm.swap (round2 24) (round2 12) []
  exact ⟨hperm, rank_font_sizes_order_independent permA permB hperm⟩

/-- C6: title resolution is metadata-first: a metadata title that is
non-empty after trimming is returned (trimmed) regardless of the fragments;
geometric inference is never consulted. -/
theorem resolve_title_metadata_first :
    ∀ (mt : String) (blocks : List Fragment),
      pyStrip mt ≠ "" → resolve_title mt blocks = some (pyStrip mt) := by
  intro mt blocks h
  rw [resolve_title, get_title_from_metadata]
  simp [h]

/-- C6 witness: metadata title "Report 2024" resolves to itself on an
arbitrary fragment list. -/
theorem resolve_title_metadata_first_witness :
    pyStrip "Report 2024" ≠ ""
      ∧ resolve_title "Report 2024" [] = some "Report 2024" := by
  refine ⟨by decide, ?_⟩
  rw [resolve_title_metadata_first "Report 2024" [] (by decide)]
  decide

/-- C3 conclusion: on a non-empty fragment list the geometric inference
returns the trimmed text of a candidate minimal for `(y0, centering
distance)`; with no candidate, the trimmed text of a restricted-set fragment
with minimal `y0`. -/
def titleSpec (lines : List Fragment) (pw : ℚ) : Prop :=
  (titleCandidates lines ≠ [] →
    ∃ c ∈ titleCandidates lines,
      infer_title_from_lines lines pw = some (pyStrip c.text)
        ∧ ∀ c2 ∈ titleCandidates lines, titleLe pw c c2)
  ∧ (titleCandidates lines = [] →
    ∃ t ∈ restrictedSet lines,
      infer_title_from_lines lines pw = some (pyStrip t.text)
        ∧ ∀ t2 ∈ restrictedSet lines, t.y0 ≤ t2.y0)

lemma restrictedSet_ne_nil (lines : List Fragment) (h : lines ≠ []) :
    restrictedSet lines ≠ [] := by
  intro hnil
  rw [restrictedSet] at hnil
  by_cases hE : (lines.filter fun l => l.page == 1).isEmpty
  · rw [if_pos hE] at hnil
    rcases List.take_eq_nil_iff.mp hnil with h10 | hlin
    · exact absurd h10 (by decide)
    · exact h hlin
  · rw [if_neg hE] at hnil
    exact hE (by rw [hnil]; rfl)

/-- C3: the geometric title inference selects, among the restricted set's
maximal-rounded-size short fragments, one minimal in `y0` with ties broken by
the centering distance; with no candidates it falls back to the topmost
restricted fragment.  The restriction and candidate formulas are those of
`restrictedSet` and `titleCandidates`. -/
theorem infer_title_characterization :
    ∀ (lines : List Fragment) (pw : ℚ), lines ≠ [] → titleSpec lines pw := by
  intro lines pw h
  obtain ⟨x, xs, hx⟩ :=
    List.exists_cons_of_ne_nil (restrictedSet_ne_nil lines h)
  constructor
  · intro hc
    cases hs : List.insertionSort (titleLe pw) (titleCandidates lines) with
    | nil =>
      exfalso
      have hp := List.perm_insertionSort (titleLe pw) (titleCandidates lines)
      rw [hs] at hp
      exact hc hp.symm.eq_nil
    | cons c cs =>
      obtain ⟨hmem, hmin⟩ :=
        insertionSort_head_min (titleLe pw) (titleCandidates lines) c cs hs
      refine ⟨c, hmem, ?_, hmin⟩
      rw [infer_title_from_lines, hx]
      simp only [hs]
  · intro hc
    cases hs : List.insertionSort yLe (x :: xs) with
    | nil =>
      exfalso
      have hp := List.perm_insertionSort yLe (x :: xs)
      rw [hs] at hp
      exact List.cons_ne_nil x xs hp.symm.eq_nil
    | cons t ts =>
      obtain ⟨hmem, hmin⟩ := insertionSort_head_min yLe (x :: xs) t ts hs
      refine ⟨t, hx ▸ hmem, ?_, ?_⟩
      · rw [infer_title_from_lines, hx, hc]
        show some (pyStrip (List.insertionSort yLe (x :: xs)).headI.text)
          = some (pyStrip t.text)
        rw [hs]
        rfl
      · intro t2 ht2
        exact hmin t2 (hx ▸ ht2)

/-- The spec's title-inference example: a large "Intro" line above body
text on page 1. -/
def exTitle : List Fragment :=
  [⟨"Intro", 24, "F", 250, 50, 1⟩, ⟨"Body text here", 12, "F", 50, 80, 1⟩]

/-- C3 witness: the characterization instantiated at the spec's example. -/
theorem infer_title_characterization_witness :
    exTitle ≠ [] ∧ titleSpec exTitle (5952 / 10) :=
  ⟨by decide, infer_title_characterization exTitle (5952 / 10) (by decide)⟩

/-- C9: every EmptyContent condition — no blocks, an empty font-level map,
no labeled fragments, or all headings filtered out — makes `process_pdf`
return `skipped`: no output is written and no error is surfaced. -/
theorem process_pdf_empty_content_skips :
    ∀ (mt : String) (blocks : List Fragment),
      (blocks = [] → process_pdf mt blocks = Outcome.skipped)
      ∧ (rank_font_sizes blocks = [] → process_pdf mt blocks = Outcome.skipped)
      ∧ (assign_heading_levels blocks (rank_font_sizes blocks) = [] →
          process_pdf mt blocks = Outcome.skipped)
      ∧ (filter_headings (assign_heading_levels blocks (rank_font_sizes blocks)) = [] →
          process_pdf mt blocks = Outcome.skipped) := by
  intro mt blocks
  by_cases hb : blocks = []
  · subst hb
    exact ⟨fun _ => rfl, fun _ => rfl, fun _ => rfl, fun _ => rfl⟩
  · have hrank := rank_ne_nil blocks hb
    have hlab := labeled_ne_nil blocks hb
    refine ⟨fun h => absurd h hb, fun h => absurd h hrank,
      fun h => absurd h hlab, ?_⟩
    intro hfilter
    have hres : (resolve_title mt blocks).isSome = true := by
      rw [resolve_title]
      cases hmt : get_title_from_metadata mt with
      | some t => rfl
      | none => exact infer_isSome_of_ne_nil blocks _ hb
    obtain ⟨t, ht⟩ := Option.isSome_iff_exists.mp hres
    rw [process_pdf, if_neg hb]
    simp only [if_neg hrank, if_neg hlab, ht, hfilter, if_pos]

/-- C9 witness: the empty block list satisfies every skip hypothesis and is
skipped. -/
theorem process_pdf_empty_content_skips_witness :
    rank_font_sizes ([] : List Fragment) = []
      ∧ process_pdf "x" [] = Outcome.skipped :=
  ⟨rfl, (process_pdf_empty_content_skips "x" []).2.1 rfl⟩

end Extractor
